import Mathlib

/-!
Shallow embedding of tools/bloggen/main.go (a static-site build step that
walks a tree of markdown articles, copies assets and renders each article
to HTML), together with proofs about the embedded definitions.

Go byte strings are modelled as lists of characters (`Str`); machine I/O
(reading templates, creating directories, executing templates, the
markdown-to-HTML conversion) is environmental and not modelled, while all
path/string/date computations of the source are embedded faithfully.
-/

namespace Bloggen

/-- Go strings / byte slices are modelled as lists of characters. -/
abbrev Str := List Char

/-- Shorthand turning a Lean string literal into the `Str` model. -/
def str (s : String) : Str := s.data

/-- Model of Go `strings.Split` / `bytes.Split` for a one-character
separator: splits around every instance of the separator, so that
`Split("", sep) = [""]` as in Go. -/
def splitOnChar (c : Char) : Str → List Str
  | [] => [[]]
  | a :: rest =>
    if a = c then [] :: splitOnChar c rest
    else
      match splitOnChar c rest with
      | [] => [[a]]
      | g :: gs => (a :: g) :: gs

/-- Model of Go `strings.Split` for a two-character separator `c1 c2`
(the source only ever splits on `"]("`): splits around every leftmost,
non-overlapping instance of the separator. -/
def splitOnTwo (c1 c2 : Char) : Str → List Str
  | [] => [[]]
  | [a] => [[a]]
  | a :: b :: rest =>
    if a = c1 ∧ b = c2 then [] :: splitOnTwo c1 c2 rest
    else
      match splitOnTwo c1 c2 (b :: rest) with
      | [] => [[a]]
      | g :: gs => (a :: g) :: gs

/-- Model of Go `strings.Join(elems, sep)`. -/
def strJoin (sep : Str) : List Str → Str
  | [] => []
  | [x] => x
  | x :: xs => x ++ sep ++ strJoin sep xs

/-- The white-space class used by Go `strings.TrimSpace` (`unicode.IsSpace`),
restricted to Latin-1; space characters above U+00FF are not modelled. -/
def goIsSpace (c : Char) : Bool :=
  c = ' ' || c = '\t' || c = '\n' || c = '\x0b' || c = '\x0c' || c = '\r' ||
  c = '\x85' || c = '\xa0'

/-- Model of Go `strings.TrimSpace`. -/
def trimSpace (s : Str) : Str :=
  ((s.dropWhile goIsSpace).reverse.dropWhile goIsSpace).reverse

/-- Model of Go `strings.TrimSuffix`. -/
def trimSuffixStr (s suf : Str) : Str :=
  if suf.isSuffixOf s then s.take (s.length - suf.length) else s

/-- Model of Go `strings.ToLower`; only ASCII letters are mapped (letter
case outside ASCII is not modelled). -/
def asciiLower (s : Str) : Str :=
  s.map fun c => if 'A' ≤ c && c ≤ 'Z' then Char.ofNat (c.toNat + 32) else c

/-- Model of Go `strings.ReplaceAll(s, old, new)` for a one-character
`old`, via the Go identity `Replace(s, old, new, -1) = Join(Split(s, old), new)`. -/
def goReplaceAll (o : Char) (new : Str) (s : Str) : Str :=
  strJoin new (splitOnChar o s)

/-- One element step of Go `path/filepath.Clean` (unix rules): empty and
`.` elements vanish, `..` pops the previous element unless there is
nothing to pop (at the root it vanishes, otherwise it is kept). -/
def cleanStep (rooted : Bool) (acc : List Str) (seg : Str) : List Str :=
  if seg = [] ∨ seg = ['.'] then acc
  else if seg = ['.', '.'] then
    match acc with
    | [] => if rooted then [] else [seg]
    | top :: rest => if top = ['.', '.'] then seg :: acc else rest
  else seg :: acc

/-- Whether a path is absolute (`os.IsPathSeparator(path[0])` in Go). -/
def isRooted : Str → Bool
  | '/' :: _ => true
  | _ => false

/-- Model of Go `path/filepath.Clean` on unix paths. -/
def pathClean (p : Str) : Str :=
  if p.isEmpty then ['.']
  else
    let out := ((splitOnChar '/' p).foldl (cleanStep (isRooted p)) []).reverse
    let joined := strJoin ['/'] out
    if isRooted p then '/' :: joined
    else if joined.isEmpty then ['.'] else joined

/-- Model of Go `path/filepath.Join`: empty elements are dropped, the rest
are joined with `/` and the result is cleaned; all-empty input gives `""`. -/
def pathJoin (elems : List Str) : Str :=
  let ne := elems.filter fun e => !e.isEmpty
  if ne.isEmpty then [] else pathClean (strJoin ['/'] ne)

/-- Model of Go `path/filepath.Dir`: everything up to and including the
final separator, cleaned (`Clean("") = "."` when there is no separator). -/
def pathDir (p : Str) : Str :=
  pathClean ((p.reverse.dropWhile (· != '/')).reverse)

/-- Model of Go `path/filepath.Base`: trailing separators are removed,
then the last element is returned (`"."` for `""`, `"/"` for all-slash). -/
def pathBase (p : Str) : Str :=
  if p.isEmpty then ['.']
  else
    let r := p.reverse.dropWhile (· == '/')
    let b := (r.takeWhile (· != '/')).reverse
    if b.isEmpty then ['/'] else b

/-- Model of Go `path/filepath.Ext`: the suffix of the final element
starting at its last dot, or `""` when the final element has no dot. -/
def pathExt (p : Str) : Str :=
  let r := p.reverse.takeWhile (· != '/')
  if r.any (· == '.') then ((r.takeWhile (· != '.')) ++ ['.']).reverse else []

/-- The hard-coded source tree, `filepath.Join("../", "../", "xbarapp.com", "articles")`. -/
def sourceArticlesFolder : Str :=
  pathJoin [str "../", str "../", str "xbarapp.com", str "articles"]

/-- The hard-coded destination tree,
`filepath.Join("../", "../", "xbarapp.com", "public", "docs")`. -/
def destFolder : Str :=
  pathJoin [str "../", str "../", str "xbarapp.com", str "public", str "docs"]

example : pathClean (str "../../a//b/./c/..") = str "../../a/b" := by decide
example : sourceArticlesFolder = str "../../xbarapp.com/articles" := by decide
example : destFolder = str "../../xbarapp.com/public/docs" := by decide
example : pathDir (str "2023/04/my-post.html") = str "2023/04" := by decide
example : pathBase (str "2023/04/my-post.html") = str "my-post.html" := by decide
example : pathExt (str "a/B.MD") = str ".MD" := by decide
example : pathJoin [str "2023/04", str "images/hero.png"] = str "2023/04/images/hero.png" := by decide

/-- Outcome of running a piece of Go code: a runtime panic (which kills the
whole process, since every render job runs in a bare goroutine), a returned
`error` value, or a normal result. -/
inductive GoResult (α : Type) where
  | panicked (msg : String)
  | failed (msg : String)
  | ok (a : α)
  deriving DecidableEq, Repr

/-- The fields of the per-article `pagedata` value computed by
`processMarkdownFile` from its inputs.  The remaining fields
(`Version`, `LastUpdatedFormatted`, `Categories`, `HTML`) come from the
build environment and the opaque markdown renderer and are not modelled. -/
structure PageData where
  Path : Str
  ArticleTimeStr : Str
  Title : Str
  Desc : Str
  ImageURL : Str
  deriving DecidableEq, Repr

/-- Numeric value of an ASCII digit character. -/
def digitVal (c : Char) : Nat := c.toNat - '0'.toNat

/-- Model of Go `time.Parse("01/2006", v)`: exactly two digits (a
zero-padded month), a literal `/`, exactly four digits (the year), and
nothing else; the month must lie in `1..12`.  On success it returns the
numeric month and year. -/
def parseMonthYear (v : Str) : Except String (Nat × Nat) :=
  match v with
  | [m1, m2, s, y1, y2, y3, y4] =>
    if m1.isDigit && m2.isDigit && s = '/' &&
        y1.isDigit && y2.isDigit && y3.isDigit && y4.isDigit then
      let m := digitVal m1 * 10 + digitVal m2
      if 1 ≤ m ∧ m ≤ 12 then
        .ok (m, ((digitVal y1 * 10 + digitVal y2) * 10 + digitVal y3) * 10 + digitVal y4)
      else .error "month out of range"
    else .error "cannot parse"
  | _ => .error "cannot parse"

/-- English month names used by Go's `"January"` format verb. -/
def monthName : Nat → Str
  | 1 => str "January"
  | 2 => str "February"
  | 3 => str "March"
  | 4 => str "April"
  | 5 => str "May"
  | 6 => str "June"
  | 7 => str "July"
  | 8 => str "August"
  | 9 => str "September"
  | 10 => str "October"
  | 11 => str "November"
  | 12 => str "December"
  | _ => []

/-- Go's `"2006"` format verb: the year zero-padded to four digits
(years parsed from four digits are always below 10000). -/
def pad4 (y : Nat) : Str :=
  let s := Nat.toDigits 10 y
  List.replicate (4 - s.length) '0' ++ s

/-- Model of `articleTime.Format("January 2006")`. -/
def formatMonthYear (m y : Nat) : Str := monthName m ++ ' ' :: pad4 y

/-- Lines 141-149 of main.go: split the destination-relative `path` on the
separator, read `pathSegs[0]` and `pathSegs[1]`, parse `month/year` with
layout `01/2006` and format the result as `January 2006`.  Reading
`pathSegs[1]` of a single-segment path is an out-of-range index, i.e. a
runtime panic. -/
def dateFromPath (path : Str) : GoResult Str :=
  match splitOnChar '/' path with
  | [] => .panicked "index out of range"
  | [_] => .panicked "index out of range"
  | yearStr :: monthStr :: _ =>
    match parseMonthYear (monthStr ++ '/' :: yearStr) with
    | .error e => .failed ("parse time from path: " ++ e)
    | .ok (m, y) => .ok (formatMonthYear m y)

example : dateFromPath (str "2023/04/my-post.html") = .ok (str "April 2023") := by decide
example : dateFromPath (str "foo.html") = .panicked "index out of range" := by decide
example : dateFromPath (str "drafts/new/a.html") =
    .failed "parse time from path: cannot parse" := by decide

/-- Lines 156-168 of main.go: scan the lines of the source file for the
first one that, after trimming, starts with `![`; split that line on `](`
and take element 1, trim one trailing `)`, resolve against the directory
of the destination-relative `path` and prefix the fixed site base.  A
matching line with no `](` makes `Split(line, "](")[1]` an out-of-range
index, i.e. a runtime panic.  If no line matches, the result is `""`.
The `bufio.Scanner` emits the `\n`-separated lines of the file; a final
empty line cannot match `![`, so splitting on `'\n'` is faithful. -/
def imageScan (path : Str) : List Str → GoResult Str
  | [] => .ok []
  | l :: rest =>
    let line := trimSpace l
    if (str "![").isPrefixOf line then
      match splitOnTwo ']' '(' line with
      | _ :: p1 :: _ =>
        .ok (str "https://xbarapp.com/docs/" ++
          pathJoin [pathDir path, trimSuffixStr p1 [')']])
      | _ => .panicked "index out of range"
    else imageScan path rest

/-- The pure core of `processMarkdownFile` (lines 139-212 of main.go):
given the destination-relative `path`, the source path `src` and the
bytes `content` of the source file, compute the `pagedata` fields.
I/O failures (reading the file, creating the destination, executing the
template) are environment conditions and are not modelled; the returned
`GoResult.ok` means the pagedata value handed to the template engine. -/
def processMarkdownFile (path src content : Str) : GoResult PageData :=
  match dateFromPath path with
  | .panicked m => .panicked m
  | .failed m => .failed m
  | .ok articleTimeStr =>
    let firstLine := (splitOnChar '\n' content).headD []
    match imageScan path (splitOnChar '\n' content) with
    | .panicked m => .panicked m
    | .failed m => .failed m
    | .ok imagePath =>
      let base := pathBase src
      let stem := base.take (base.length - (pathExt base).length)
      { Path := path
        ArticleTimeStr := articleTimeStr
        Title := goReplaceAll '-' [' '] stem
        Desc := firstLine
        ImageURL := imagePath : PageData }
      |> .ok

/-- Lines 84-93 of main.go, the per-article render job: rename the base
filename by dropping its last two characters, appending `"html"` and
lower-casing, build the destination path and the destination-relative
path, and run `processMarkdownFile`.  `GoResult.ok (dest, pd)` models a
successful render creating the output file at `dest`. -/
def runArticleJob (path rel content : Str) : GoResult (Str × PageData) :=
  let filename0 := pathBase path
  let filename := asciiLower ((filename0.take (filename0.length - 2)) ++ str "html")
  let dest := pathJoin [destFolder, pathDir rel, filename]
  let destFilename := pathJoin [pathDir rel, filename]
  match processMarkdownFile destFilename path content with
  | .panicked m => .panicked m
  | .failed m => .failed m
  | .ok pd => .ok (dest, pd)

/-- Model of the `copy` helper (lines 215-237 of main.go): a non-regular
source file is an error; otherwise `io.Copy` transfers the source bytes
unchanged to the destination.  Stat/open/create failures are environment
conditions and are not modelled. -/
def copy (regular : Bool) (content : Str) : Except String Str :=
  if regular then .ok content else .error "not a regular file"

/-- One regular-file visit of the `filepath.Walk` callback: the entry's
own base name (`info.Name()`), its path relative to the source root, its
bytes and whether it is a regular file. -/
structure Entry where
  name : Str
  rel : Str
  content : Str
  regular : Bool
  deriving DecidableEq, Repr

/-- What the walk phase of `run` accumulates: the `articles` map
(source path to relative path, in visit order) and the asset copies
performed (destination path and the bytes written there). -/
structure WalkAcc where
  articles : List (Str × Str)
  copies : List (Str × Str)
  deriving DecidableEq, Repr

/-- Lines 51-76 of main.go, the walk callback body for one file visit:
skip dotfiles (by the entry's own name), record `.md` files in the
articles map without copying them, and copy everything else to the
mirrored destination path; a copy failure aborts the walk.  Directory
visits run `if info.IsDir() { return nil }` before the dotfile check, so
they contribute nothing here and never prune the walk. -/
def walkStep (acc : WalkAcc) (e : Entry) : Except String WalkAcc :=
  if (str ".").isPrefixOf e.name then .ok acc
  else
    let path := pathJoin [sourceArticlesFolder, e.rel]
    if pathExt path = str ".md" then
      .ok { acc with articles := acc.articles ++ [(path, e.rel)] }
    else
      match copy e.regular e.content with
      | .error m => .error m
      | .ok bs => .ok { acc with copies := acc.copies ++ [(pathJoin [destFolder, e.rel], bs)] }

/-- Folding the walk callback over the visited files. -/
def runWalkFrom (acc : WalkAcc) : List Entry → Except String WalkAcc
  | [] => .ok acc
  | e :: es =>
    match walkStep acc e with
    | .error m => .error m
    | .ok acc2 => runWalkFrom acc2 es

/-- The whole walk phase of `run` over the visited files. -/
def runWalk (es : List Entry) : Except String WalkAcc := runWalkFrom ⟨[], []⟩ es

/-- A file-system tree: regular (or not) files with bytes, and
directories with children.  Entry names never contain a separator. -/
inductive FNode where
  | file (name : Str) (content : Str) (regular : Bool)
  | dir (name : Str) (children : List FNode)

/-- Extending a relative path by one entry name, as the successive
`filepath.Join(dir, name)` steps of `filepath.Walk` produce it. -/
def relJoin (pre n : Str) : Str := if pre.isEmpty then n else pre ++ '/' :: n

mutual
/-- The files `filepath.Walk` visits under a node, with their paths
relative to the walk root.  Directory visits return `nil` from the
callback (never `filepath.SkipDir`), so the walk descends into every
directory whatever its name; only files produce entries. -/
def collect (pre : Str) : FNode → List Entry
  | .file n c r => [⟨n, relJoin pre n, c, r⟩]
  | .dir n cs => collectList (relJoin pre n) cs

/-- `collect` mapped over a list of sibling nodes. -/
def collectList (pre : Str) : List FNode → List Entry
  | [] => []
  | t :: ts => collect pre t ++ collectList pre ts
end

/-- The files visited under the source root, whose own path is not part
of the relative paths. -/
def walkFiles (roots : List FNode) : List Entry := collectList [] roots

example :
    walkFiles [FNode.dir (str ".git") [FNode.file (str "pic.png") (str "bytes") true]] =
      [⟨str "pic.png", str ".git/pic.png", str "bytes", true⟩] := by decide

example :
    runWalk [⟨str "a.MD", str "a.MD", str "x", true⟩] =
      .ok ⟨[], [(str "../../xbarapp.com/public/docs/a.MD", str "x")]⟩ := by rfl

example :
    runWalk [⟨str "a.md", str "2023/04/a.md", str "x", true⟩] =
      .ok ⟨[(str "../../xbarapp.com/articles/2023/04/a.md", str "2023/04/a.md")], []⟩ := by
  rfl

/-- C1.  The claim says a destination-relative path with fewer than two
segments fails with a parse error that is logged and skips only that
article.  In fact, for the markdown file `foo.md` sitting directly in the
source root (destination-relative path `foo.html`, a single segment),
`pathSegs[1]` is an out-of-range index: the render job panics instead of
returning an error, and a goroutine panic kills the whole run. -/
theorem claim1_missing_segment_panic :
    runArticleJob (pathJoin [sourceArticlesFolder, str "foo.md"]) (str "foo.md")
        (str "# Hi\n") =
      .panicked "index out of range" := by decide

/-- C2.  The claim says no input to `processMarkdownFile` can panic; in
particular that a trimmed line starting with `![` but containing no `](`
does not panic.  In fact, on the well-formed path `2023/04/a.md` with a
content line `![broken`, `strings.Split(line, "](")` has one element and
index `[1]` panics, killing the whole run. -/
theorem claim2_unclosed_image_panic :
    runArticleJob (pathJoin [sourceArticlesFolder, str "2023/04/a.md"]) (str "2023/04/a.md")
        (str "Intro\n![broken\nmore text\n") =
      .panicked "index out of range" := by decide

/-- C3, counterexample.  The claim says the image URL is the text between
the first `](` and the next `)`.  On the line
`![alt](images/hero.png) tail` that reading predicts `images/hero.png`,
but the code keeps everything after `](` (one trailing `)` would only be
trimmed at end of line), producing `…/hero.png) tail`. -/
theorem claim3_counterexample :
    processMarkdownFile (str "2023/04/my-post.html") (str "my-post.md")
        (str "Hello world\n![alt](images/hero.png) tail\n") =
      .ok ⟨str "2023/04/my-post.html", str "April 2023", str "my post", str "Hello world",
        str "https://xbarapp.com/docs/2023/04/images/hero.png) tail"⟩ ∧
    str "https://xbarapp.com/docs/2023/04/images/hero.png) tail" ≠
      str "https://xbarapp.com/docs/2023/04/images/hero.png" := by decide

/-- C6.  For every destination-relative path whose first segment is four
digits (the year) and second segment is two digits making a month in
`1..12`, the article date string swaps the segments into `MM/YYYY` form,
parses them, and formats month-name plus zero-padded year; in particular
`2023/04/my-post.html` yields `April 2023`. -/
theorem claim6_article_date :
    (∀ (path : Str) (a b c d e f : Char) (rest : List Str),
      splitOnChar '/' path = [a, b, c, d] :: [e, f] :: rest →
      a.isDigit = true → b.isDigit = true → c.isDigit = true → d.isDigit = true →
      e.isDigit = true → f.isDigit = true →
      1 ≤ digitVal e * 10 + digitVal f → digitVal e * 10 + digitVal f ≤ 12 →
      dateFromPath path =
        .ok (monthName (digitVal e * 10 + digitVal f) ++ ' ' ::
          pad4 (((digitVal a * 10 + digitVal b) * 10 + digitVal c) * 10 + digitVal d))) ∧
    dateFromPath (str "2023/04/my-post.html") = .ok (str "April 2023") := by
  constructor
  · intro path a b c d e f rest hsplit ha hb hc hd he hf h1 h12
    unfold dateFromPath
    rw [hsplit]
    simp only [List.cons_append, List.nil_append]
    have : parseMonthYear [e, f, '/', a, b, c, d] =
        .ok (digitVal e * 10 + digitVal f,
          ((digitVal a * 10 + digitVal b) * 10 + digitVal c) * 10 + digitVal d) := by
      unfold parseMonthYear
      simp [ha, hb, hc, hd, he, hf, h1, h12]
    rw [this]
    rfl
  · decide

/-- Witness for C6 at the concrete path of the claim. -/
theorem claim6_article_date_witness :
    dateFromPath (str "2023/04/my-post.html") = .ok (str "April 2023") :=
  (claim6_article_date.1 (str "2023/04/my-post.html") '2' '0' '2' '3' '0' '4'
    [str "my-post.html"] (by decide) (by decide) (by decide) (by decide) (by decide)
    (by decide) (by decide) (by decide) (by decide)).trans (by decide)

theorem splitOnChar_ne_nil (c : Char) (s : Str) : splitOnChar c s ≠ [] := by
  induction s with
  | nil => simp [splitOnChar]
  | cons a rest ih =>
    unfold splitOnChar
    by_cases h : a = c
    · simp [h]
    · rw [if_neg h]
      cases hs : splitOnChar c rest with
      | nil => exact absurd hs ih
      | cons g gs => simp

theorem splitOnChar_headD (c : Char) (s : Str) :
    (splitOnChar c s).headD [] = s.takeWhile (· != c) := by
  induction s with
  | nil => rfl
  | cons a rest ih =>
    unfold splitOnChar
    by_cases h : a = c
    · subst h
      rw [if_pos rfl, List.takeWhile_cons_of_neg (by simp)]
      rfl
    · rw [if_neg h, List.takeWhile_cons_of_pos (by simpa using h)]
      cases hs : splitOnChar c rest with
      | nil => exact absurd hs (splitOnChar_ne_nil c rest)
      | cons g gs =>
        rw [hs] at ih
        simpa using ih

/-- C8.  For every markdown source file, the one-line description handed
to the template is exactly the longest newline-free leading slice of the
raw content: the bytes up to the first newline, or the whole content when
there is none, with no transformation applied. -/
theorem claim8_description :
    ∀ (path src content : Str) (pd : PageData),
      processMarkdownFile path src content = .ok pd →
      pd.Desc = content.takeWhile (· != '\n') := by
  intro path src content pd h
  unfold processMarkdownFile at h
  cases hd : dateFromPath path with
  | panicked m => rw [hd] at h; exact absurd h (by simp)
  | failed m => rw [hd] at h; exact absurd h (by simp)
  | ok ats =>
    rw [hd] at h
    cases hi : imageScan path (splitOnChar '\n' content) with
    | panicked m => rw [hi] at h; exact absurd h (by simp)
    | failed m => rw [hi] at h; exact absurd h (by simp)
    | ok ip =>
      rw [hi] at h
      simp only [GoResult.ok.injEq] at h
      rw [← h]
      exact splitOnChar_headD '\n' content

/-- Witness for C8 at a concrete input. -/
theorem claim8_description_witness :
    (⟨str "2023/04/a.html", str "April 2023", str "a", str "First line", []⟩ : PageData).Desc =
      (str "First line\nRest").takeWhile (· != '\n') :=
  claim8_description (str "2023/04/a.html") (str "a.md") (str "First line\nRest")
    ⟨str "2023/04/a.html", str "April 2023", str "a", str "First line", []⟩ (by decide)

/-- Spec-side reading of the title stem: the filename with its extension
(the part from the last dot onwards, when the name has a dot) stripped. -/
def specStem (name : Str) : Str :=
  if name.any (· == '.') then ((name.reverse.dropWhile (· != '.')).drop 1).reverse
  else name

/-- Spec-side reading of the derived page title: the stem with every
hyphen replaced by a space and every other character untouched. -/
def specTitle (name : Str) : Str :=
  (specStem name).map fun c => if c = '-' then ' ' else c

theorem strJoin_cons_head (sep : Str) (a : Char) (g : Str) (gs : List Str) :
    strJoin sep ((a :: g) :: gs) = a :: strJoin sep (g :: gs) := by
  cases gs <;> simp [strJoin]

theorem replaceAll_hyphen (s : Str) :
    goReplaceAll '-' [' '] s = s.map (fun c => if c = '-' then ' ' else c) := by
  induction s with
  | nil => rfl
  | cons a rest ih =>
    unfold goReplaceAll at ih ⊢
    unfold splitOnChar
    by_cases h : a = '-'
    · rw [if_pos h]
      cases hs : splitOnChar '-' rest with
      | nil => exact absurd hs (splitOnChar_ne_nil _ _)
      | cons g gs =>
        rw [hs] at ih
        simp only [List.map_cons, if_pos h]
        rw [← ih]
        simp [strJoin]
    · rw [if_neg h]
      cases hs : splitOnChar '-' rest with
      | nil => exact absurd hs (splitOnChar_ne_nil _ _)
      | cons g gs =>
        rw [hs] at ih
        simp only [List.map_cons, if_neg h]
        rw [← ih, strJoin_cons_head]

theorem dropWhile_head_false {α : Type} {p : α → Bool} {l : List α} {x : α} {xs : List α}
    (h : l.dropWhile p = x :: xs) : p x = false := by
  have hne : l.dropWhile p ≠ [] := by rw [h]; simp
  have := List.head_dropWhile_not p l hne
  rw [List.head_eq_iff_head?_eq_some ?w |>.mpr ?hh] at this
  case w => exact hne
  case hh => rw [h]; rfl
  simpa using this

theorem take_sub_append {α : Type} (l1 l2 : List α) :
    (l1 ++ l2).take ((l1 ++ l2).length - l2.length) = l1 := by
  have h : (l1 ++ l2).length - l2.length = l1.length := by
    simp [List.length_append]
  rw [h]
  exact List.take_left _ _

theorem codeStem_eq_specStem {name : Str} (h : ('/' : Char) ∉ name) :
    name.take (name.length - (pathExt name).length) = specStem name := by
  have hr : name.reverse.takeWhile (· != '/') = name.reverse := by
    apply List.takeWhile_eq_self_iff.mpr
    intro x hx
    have hxs : x ≠ '/' := fun he => h (he ▸ List.mem_reverse.mp hx)
    simpa using hxs
  unfold pathExt specStem
  rw [hr]
  by_cases hdot : ('.' : Char) ∈ name
  · have hany : name.reverse.any (· == '.') = true := by
      simp only [List.any_eq_true, beq_iff_eq]
      exact ⟨'.', List.mem_reverse.mpr hdot, rfl⟩
    have hany2 : name.any (· == '.') = true := by
      simp only [List.any_eq_true, beq_iff_eq]
      exact ⟨'.', hdot, rfl⟩
    rw [if_pos hany, if_pos hany2]
    have hsplit : name.reverse.takeWhile (· != '.') ++ name.reverse.dropWhile (· != '.') =
        name.reverse := List.takeWhile_append_dropWhile _ _
    cases hdw : name.reverse.dropWhile (· != '.') with
    | nil =>
      rw [hdw, List.append_nil] at hsplit
      have hmem : ('.' : Char) ∈ name.reverse.takeWhile (· != '.') := by
        rw [hsplit]; exact List.mem_reverse.mpr hdot
      have := List.mem_takeWhile_imp hmem
      simp at this
    | cons x xs =>
      have hx : x = '.' := by
        have := dropWhile_head_false hdw
        simpa using this
      subst hx
      rw [hdw] at hsplit
      set tw := name.reverse.takeWhile (· != '.') with htw
      have hname : name = xs.reverse ++ (tw ++ ['.']).reverse := by
        have h2 := congrArg List.reverse hsplit
        rw [List.reverse_reverse] at h2
        rw [← h2]
        simp [List.reverse_append]
      simp only [List.drop_succ_cons, List.drop_zero]
      conv_lhs => rw [hname]
      exact take_sub_append _ _
  · have hany : ¬ (name.reverse.any (· == '.') = true) := by
      simp only [List.any_eq_true, beq_iff_eq]
      rintro ⟨x, hx, rfl⟩
      exact hdot (List.mem_reverse.mp hx)
    have hany2 : ¬ (name.any (· == '.') = true) := by
      simp only [List.any_eq_true, beq_iff_eq]
      rintro ⟨x, hx, rfl⟩
      exact hdot hx
    rw [if_neg hany, if_neg hany2]
    simp

theorem pathBase_cases (p : Str) : pathBase p = ['/'] ∨ ('/' : Char) ∉ pathBase p := by
  unfold pathBase
  by_cases hp : p.isEmpty
  · right
    rw [if_pos hp]
    decide
  · rw [if_neg hp]
    by_cases hb : (((p.reverse.dropWhile (· == '/')).takeWhile (· != '/')).reverse).isEmpty
    · left
      rw [if_pos hb]
    · right
      rw [if_neg hb]
      intro hmem
      have := List.mem_takeWhile_imp (List.mem_reverse.mp hmem)
      simp at this

/-- C7.  For every source markdown file that renders, the page title is
the base filename with its extension stripped and every hyphen replaced
by a space, all other characters untouched; in particular
`my-great-post.md` yields `my great post`. -/
theorem claim7_title :
    (∀ (path src content : Str) (pd : PageData),
      processMarkdownFile path src content = .ok pd →
      pd.Title = specTitle (pathBase src)) ∧
    specTitle (str "my-great-post.md") = str "my great post" := by
  constructor
  · intro path src content pd h
    unfold processMarkdownFile at h
    cases hd : dateFromPath path with
    | panicked m => rw [hd] at h; exact absurd h (by simp)
    | failed m => rw [hd] at h; exact absurd h (by simp)
    | ok ats =>
      rw [hd] at h
      cases hi : imageScan path (splitOnChar '\n' content) with
      | panicked m => rw [hi] at h; exact absurd h (by simp)
      | failed m => rw [hi] at h; exact absurd h (by simp)
      | ok ip =>
        rw [hi] at h
        simp only [GoResult.ok.injEq] at h
        rw [← h]
        show goReplaceAll '-' [' ']
            ((pathBase src).take ((pathBase src).length - (pathExt (pathBase src)).length)) =
          specTitle (pathBase src)
        rw [replaceAll_hyphen]
        unfold specTitle
        rcases pathBase_cases src with hb | hb
        · rw [hb]
          decide
        · rw [codeStem_eq_specStem hb]
  · decide

/-- The articles-map entry a visited file contributes, if any. -/
def articleOf (e : Entry) : Option (Str × Str) :=
  if (str ".").isPrefixOf e.name then none
  else if pathExt (pathJoin [sourceArticlesFolder, e.rel]) = str ".md" then
    some (pathJoin [sourceArticlesFolder, e.rel], e.rel)
  else none

/-- The asset copy a visited file contributes, if any. -/
def copyOf (e : Entry) : Option (Str × Str) :=
  if (str ".").isPrefixOf e.name then none
  else if pathExt (pathJoin [sourceArticlesFolder, e.rel]) = str ".md" then none
  else some (pathJoin [destFolder, e.rel], e.content)

theorem runWalkFrom_ok (es : List Entry) :
    ∀ (acc0 acc : WalkAcc), runWalkFrom acc0 es = .ok acc →
      acc.articles = acc0.articles ++ es.filterMap articleOf ∧
      acc.copies = acc0.copies ++ es.filterMap copyOf := by
  induction es with
  | nil =>
    intro acc0 acc h
    obtain rfl : acc0 = acc := by injection h
    simp
  | cons e es ih =>
    intro acc0 acc h
    unfold runWalkFrom at h
    cases hs : walkStep acc0 e with
    | error m => rw [hs] at h; exact absurd h (by simp)
    | ok acc1 =>
      rw [hs] at h
      obtain ⟨ha, hc⟩ := ih acc1 acc h
      unfold walkStep at hs
      by_cases hdotc : (str ".").isPrefixOf e.name = true
      · rw [if_pos hdotc] at hs
        obtain rfl : acc0 = acc1 := by injection hs
        simp [List.filterMap_cons, articleOf, copyOf, hdotc, ha, hc]
      · rw [if_neg hdotc] at hs
        by_cases hext : pathExt (pathJoin [sourceArticlesFolder, e.rel]) = str ".md"
        · rw [if_pos hext] at hs
          obtain rfl : ({ acc0 with articles := acc0.articles ++
              [(pathJoin [sourceArticlesFolder, e.rel], e.rel)] } : WalkAcc) = acc1 := by
            injection hs
          simp only [List.filterMap_cons, articleOf, copyOf, if_neg hdotc, if_pos hext]
          exact ⟨by simp [ha], by simp [hc]⟩
        · rw [if_neg hext] at hs
          cases hcopy : copy e.regular e.content with
          | error m => rw [hcopy] at hs; exact absurd hs (by simp)
          | ok bs =>
            rw [hcopy] at hs
            have hbs : bs = e.content := by
              unfold copy at hcopy
              split at hcopy
              · injection hcopy with h2; exact h2.symm
              · exact absurd hcopy (by simp)
            subst hbs
            obtain rfl : ({ acc0 with copies := acc0.copies ++
                [(pathJoin [destFolder, e.rel], e.content)] } : WalkAcc) = acc1 := by
              injection hs
            simp only [List.filterMap_cons, articleOf, copyOf, if_neg hdotc, if_neg hext]
            exact ⟨by simp [ha], by simp [hc]⟩

/-- C5.  When the walk completes: every regular, non-dotfile source file
that is not markdown has its bytes copied unchanged to the mirrored
destination path; every copy performed comes from such a non-markdown
file; and every non-dotfile markdown file is recorded as an article
candidate (so it is never the source of a copy). -/
theorem claim5_asset_copy :
    ∀ (es : List Entry) (acc : WalkAcc), runWalk es = .ok acc →
      (∀ e ∈ es, e.regular = true → (str ".").isPrefixOf e.name = false →
        pathExt (pathJoin [sourceArticlesFolder, e.rel]) ≠ str ".md" →
        (pathJoin [destFolder, e.rel], e.content) ∈ acc.copies) ∧
      (∀ dc ∈ acc.copies, ∃ e ∈ es, (str ".").isPrefixOf e.name = false ∧
        pathExt (pathJoin [sourceArticlesFolder, e.rel]) ≠ str ".md" ∧
        dc = (pathJoin [destFolder, e.rel], e.content)) ∧
      (∀ e ∈ es, (str ".").isPrefixOf e.name = false →
        pathExt (pathJoin [sourceArticlesFolder, e.rel]) = str ".md" →
        (pathJoin [sourceArticlesFolder, e.rel], e.rel) ∈ acc.articles) := by
  intro es acc h
  obtain ⟨ha, hc⟩ := runWalkFrom_ok es ⟨[], []⟩ acc h
  simp only [List.nil_append] at ha hc
  refine ⟨?_, ?_, ?_⟩
  · intro e he hreg hdot hext
    rw [hc]
    exact List.mem_filterMap.mpr ⟨e, he, by simp [copyOf, hdot, hext]⟩
  · intro dc hdc
    rw [hc] at hdc
    obtain ⟨e, he, hfe⟩ := List.mem_filterMap.mp hdc
    unfold copyOf at hfe
    by_cases hdot : (str ".").isPrefixOf e.name = true
    · rw [if_pos hdot] at hfe; exact absurd hfe (by simp)
    · rw [if_neg hdot] at hfe
      by_cases hext : pathExt (pathJoin [sourceArticlesFolder, e.rel]) = str ".md"
      · rw [if_pos hext] at hfe; exact absurd hfe (by simp)
      · rw [if_neg hext] at hfe
        injection hfe with h2
        exact ⟨e, he, by rw [← Bool.not_eq_true]; exact hdot, hext, h2.symm⟩
  · intro e he hdot hext
    rw [ha]
    exact List.mem_filterMap.mpr ⟨e, he, by simp [articleOf, hdot, hext]⟩

/-- Witness for C5: a single png asset is copied byte for byte. -/
theorem claim5_asset_copy_witness :
    (pathJoin [destFolder, str "logo.png"], str "BYTES") ∈
      (⟨[], [(pathJoin [destFolder, str "logo.png"], str "BYTES")]⟩ : WalkAcc).copies :=
  (claim5_asset_copy [⟨str "logo.png", str "logo.png", str "BYTES", true⟩]
    ⟨[], [(pathJoin [destFolder, str "logo.png"], str "BYTES")]⟩ (by rfl)).1
    ⟨str "logo.png", str "logo.png", str "BYTES", true⟩ (by simp) rfl (by decide) (by decide)

theorem pathBase_eq_of_head (p : Str) (c : Char) (t : Str) (hc1 : (c == '/') = false)
    (hp : p.reverse = c :: t) :
    pathBase p = ((c :: t).takeWhile (· != '/')).reverse := by
  unfold pathBase
  have hpne : ¬ (p.isEmpty = true) := by
    intro hh
    rw [List.isEmpty_iff.mp hh] at hp
    simp at hp
  rw [if_neg hpne, hp, List.dropWhile_cons_of_neg (by simp [hc1])]
  rw [if_neg ?hne]
  case hne =>
    have hcb : (fun x => x != '/') c = true := by
      show (c != '/') = true
      rw [bne_iff_ne]
      intro hcc
      rw [hcc] at hc1
      simp at hc1
    rw [@List.takeWhile_cons_of_pos Char (fun x => x != '/') c t hcb]
    simp

theorem pathExt_md_suffix {p : Str} (h : pathExt p = str ".md") :
    (str ".md").isSuffixOf (pathBase p) = true := by
  unfold pathExt at h
  by_cases hany : (p.reverse.takeWhile (· != '/')).any (· == '.') = true
  · rw [if_pos hany] at h
    have h2 : (p.reverse.takeWhile (· != '/')).takeWhile (· != '.') ++ ['.'] =
        ['d', 'm', '.'] := by
      have h3 := congrArg List.reverse h
      rw [List.reverse_reverse] at h3
      rw [h3]
      decide
    have h3 : (p.reverse.takeWhile (· != '/')).takeWhile (· != '.') = ['d', 'm'] :=
      List.append_cancel_right (h2.trans (by decide))
    have hsplit : ['d', 'm'] ++ (p.reverse.takeWhile (· != '/')).dropWhile (· != '.') =
        p.reverse.takeWhile (· != '/') := by
      rw [← h3]
      exact List.takeWhile_append_dropWhile _ _
    cases hdw : (p.reverse.takeWhile (· != '/')).dropWhile (· != '.') with
    | nil =>
      rw [hdw, List.append_nil] at hsplit
      rw [← hsplit] at hany
      simp at hany
    | cons x xs =>
      have hx : x = '.' := by simpa using dropWhile_head_false hdw
      subst hx
      rw [hdw] at hsplit
      have hrval : p.reverse.takeWhile (· != '/') = 'd' :: 'm' :: '.' :: xs := by
        rw [← hsplit]; rfl
      have hptail : p.reverse = ('d' :: 'm' :: '.' :: xs) ++
          p.reverse.dropWhile (· != '/') := by
        conv_lhs => rw [← List.takeWhile_append_dropWhile (p := (· != '/')) (l := p.reverse)]
        rw [hrval]
      have hbase : pathBase p = ('d' :: 'm' :: '.' :: xs).reverse := by
        rw [pathBase_eq_of_head p 'd' ('m' :: '.' :: xs ++ p.reverse.dropWhile (· != '/'))
          (by decide) hptail]
        have hback : 'd' :: ('m' :: '.' :: xs ++ p.reverse.dropWhile (· != '/')) =
            p.reverse := hptail.symm
        rw [hback, hrval]
      rw [hbase]
      have hmd : str ".md" = ['.', 'm', 'd'] := by decide
      rw [hmd]
      apply List.isSuffixOf_iff_suffix.mpr
      have : ('d' :: 'm' :: '.' :: xs).reverse = xs.reverse ++ ['.', 'm', 'd'] := by
        simp
      rw [this]
      exact List.suffix_append _ _
  · rw [if_neg hany] at h
    exact absurd h (by decide)

theorem splitOnChar_no_sep {c : Char} {s : Str} (h : c ∉ s) : splitOnChar c s = [s] := by
  induction s with
  | nil => rfl
  | cons a rest ih =>
    unfold splitOnChar
    rw [if_neg (fun he => h (by rw [← he]; exact List.mem_cons_self a rest))]
    rw [ih (fun hm => h (List.mem_cons_of_mem a hm))]

theorem splitOnChar_cons (c y : Char) (t : Str) :
    splitOnChar c (y :: t) =
      if y = c then [] :: splitOnChar c t
      else match splitOnChar c t with | [] => [[y]] | g :: gs => (y :: g) :: gs := rfl

theorem splitOnChar_append (c : Char) (a b : Str) :
    splitOnChar c (a ++ c :: b) = splitOnChar c a ++ splitOnChar c b := by
  induction a with
  | nil => simp [splitOnChar]
  | cons x a2 ih =>
    show splitOnChar c (x :: (a2 ++ c :: b)) = splitOnChar c (x :: a2) ++ splitOnChar c b
    rw [splitOnChar_cons c x (a2 ++ c :: b), splitOnChar_cons c x a2]
    by_cases hx : x = c
    · rw [if_pos hx, if_pos hx, ih]
      rfl
    · rw [if_neg hx, if_neg hx, ih]
      cases hs : splitOnChar c a2 with
      | nil => exact absurd hs (splitOnChar_ne_nil c a2)
      | cons g gs => rfl

theorem strJoin_cons (sep : Str) (a : Str) (ys : List Str) (h : ys ≠ []) :
    strJoin sep (a :: ys) = a ++ sep ++ strJoin sep ys := by
  cases ys with
  | nil => exact absurd rfl h
  | cons y ys2 => rfl

theorem strJoin_append_last (c : Char) (ls : List Str) (x : Str) (h : ls ≠ []) :
    strJoin [c] (ls ++ [x]) = strJoin [c] ls ++ c :: x := by
  induction ls with
  | nil => exact absurd rfl h
  | cons l ls2 ih =>
    cases ls2 with
    | nil => simp [strJoin]
    | cons m ms =>
      have hstep : strJoin [c] ((l :: m :: ms) ++ [x]) =
          l ++ [c] ++ strJoin [c] ((m :: ms) ++ [x]) := by
        rw [show (l :: m :: ms) ++ [x] = l :: ((m :: ms) ++ [x]) from rfl]
        exact strJoin_cons [c] l ((m :: ms) ++ [x]) (by simp)
      rw [hstep, ih (by simp), strJoin_cons [c] l (m :: ms) (by simp)]
      simp

theorem strJoin_last_suffix (sep : Str) (ls : List Str) (x : Str) :
    x <:+ strJoin sep (ls ++ [x]) := by
  induction ls with
  | nil => exact List.suffix_refl x
  | cons l ls2 ih =>
    rw [show (l :: ls2) ++ [x] = l :: (ls2 ++ [x]) from rfl]
    rw [strJoin_cons _ _ _ (by simp)]
    exact ih.trans (List.suffix_append _ _)

theorem cleanStep_valid (rooted : Bool) (acc : List Str) {x : Str}
    (hx : x ≠ []) (h1 : x ≠ str ".") (h2 : x ≠ str "..") :
    cleanStep rooted acc x = x :: acc := by
  unfold cleanStep
  rw [if_neg ?h12, if_neg ?h3]
  case h12 =>
    rintro (h | h)
    · exact hx h
    · exact h1 (h.trans (by decide))
  case h3 => intro h; exact h2 (h.trans (by decide))

theorem pathClean_last_suffix {q x : Str} (hq : ¬ (q.isEmpty = true)) (hx : x ≠ [])
    (h1 : x ≠ str ".") (h2 : x ≠ str "..") (S : List Str)
    (hsplit : splitOnChar '/' q = S ++ [x]) : x <:+ pathClean q := by
  unfold pathClean
  rw [if_neg hq]
  simp only [hsplit, List.foldl_append, List.foldl_cons, List.foldl_nil]
  rw [cleanStep_valid _ _ hx h1 h2, List.reverse_cons]
  cases hro : isRooted q
  · rw [if_neg (by decide)]
    have hje : ¬ ((strJoin ['/']
        ((List.foldl (cleanStep false) [] S).reverse ++ [x])).isEmpty = true) := by
      intro he
      have hsuf := strJoin_last_suffix ['/'] (List.foldl (cleanStep false) [] S).reverse x
      rw [List.isEmpty_iff.mp he] at hsuf
      exact hx (List.suffix_nil.mp hsuf)
    rw [if_neg hje]
    exact strJoin_last_suffix _ _ _
  · rw [if_pos rfl]
    exact (strJoin_last_suffix _ _ _).trans (List.suffix_cons '/' _)

theorem pathJoin_last_suffix (elems : List Str) {x : Str} (hx : x ≠ [])
    (hslash : ('/' : Char) ∉ x) (h1 : x ≠ str ".") (h2 : x ≠ str "..") :
    x <:+ pathJoin (elems ++ [x]) := by
  have hxe : x.isEmpty = false := by
    rw [← Bool.not_eq_true]
    intro hh
    exact hx (List.isEmpty_iff.mp hh)
  unfold pathJoin
  rw [List.filter_append]
  have hfx : List.filter (fun e => !e.isEmpty) [x] = [x] := by
    simp [List.filter_cons, hxe]
  rw [hfx]
  have hne : ¬ (((List.filter (fun e => !e.isEmpty) elems) ++ [x]).isEmpty = true) := by
    simp
  rw [if_neg hne]
  cases hf : List.filter (fun e => !e.isEmpty) elems with
  | nil =>
    apply pathClean_last_suffix ?hq hx h1 h2 []
    case hq =>
      show ¬ (x.isEmpty = true)
      rw [hxe]
      simp
    show splitOnChar '/' x = [] ++ [x]
    rw [splitOnChar_no_sep hslash]
    rfl
  | cons f fs =>
    apply pathClean_last_suffix ?hq hx h1 h2 (splitOnChar '/' (strJoin ['/'] (f :: fs)))
    case hq =>
      intro he
      have hsuf := strJoin_last_suffix ['/'] (f :: fs) x
      rw [List.isEmpty_iff.mp he] at hsuf
      exact hx (List.suffix_nil.mp hsuf)
    rw [strJoin_append_last '/' (f :: fs) x (by simp)]
    rw [splitOnChar_append, splitOnChar_no_sep hslash]

/-- Spec-side reading: does the string contain the two-character marker
`c1 c2`? -/
def containsSub (c1 c2 : Char) : Str → Bool
  | [] => false
  | [_] => false
  | a :: b :: rest => (a = c1 && b = c2) || containsSub c1 c2 (b :: rest)

/-- Spec-side reading: the text after the first occurrence of the marker
(`[]` when the marker does not occur). -/
def dropThroughSub (c1 c2 : Char) : Str → Str
  | [] => []
  | [_] => []
  | a :: b :: rest => if a = c1 ∧ b = c2 then rest else dropThroughSub c1 c2 (b :: rest)

/-- Spec-side reading: the text before the first occurrence of the marker
(the whole string when the marker does not occur). -/
def takeUntilSub (c1 c2 : Char) : Str → Str
  | [] => []
  | [a] => [a]
  | a :: b :: rest => if a = c1 ∧ b = c2 then [] else a :: takeUntilSub c1 c2 (b :: rest)

/-- Spec-side reading of the amended hero-image rule applied to one
(already trimmed) matching line: the URL is the text after the first `](`
up to the next `](` or the end of the line, with one trailing `)` removed
when that text ends in `)`; it is resolved against the directory of the
destination-relative path and prefixed with the fixed site base. -/
def specImageFromLine (path t : Str) : Str :=
  let u0 := takeUntilSub ']' '(' (dropThroughSub ']' '(' t)
  let u := if u0.getLast? = some ')' then u0.dropLast else u0
  str "https://xbarapp.com/docs/" ++ pathJoin [pathDir path, u]

/-- Spec-side reading of the amended hero-image rule for a whole file:
only the first line that, after trimming, starts with `![` counts; if no
line matches, the image field is empty. -/
def specImageURL (path content : Str) : Str :=
  match (splitOnChar '\n' content).find? (fun l => (str "![").isPrefixOf (trimSpace l)) with
  | none => []
  | some l => specImageFromLine path (trimSpace l)

theorem splitOnTwo_ne_nil (c1 c2 : Char) (s : Str) : splitOnTwo c1 c2 s ≠ [] := by
  induction s with
  | nil => simp [splitOnTwo]
  | cons a t ih =>
    cases t with
    | nil => simp [splitOnTwo]
    | cons b rest =>
      unfold splitOnTwo
      by_cases hab : a = c1 ∧ b = c2
      · simp [hab]
      · rw [if_neg hab]
        cases hs : splitOnTwo c1 c2 (b :: rest) with
        | nil => exact absurd hs ih
        | cons g gs => simp

theorem splitOnTwo_headD (c1 c2 : Char) (s : Str) :
    (splitOnTwo c1 c2 s).headD [] = takeUntilSub c1 c2 s := by
  induction s with
  | nil => rfl
  | cons a t ih =>
    cases t with
    | nil => rfl
    | cons b rest =>
      unfold splitOnTwo takeUntilSub
      by_cases hab : a = c1 ∧ b = c2
      · rw [if_pos hab, if_pos hab]
        rfl
      · rw [if_neg hab, if_neg hab]
        cases hs : splitOnTwo c1 c2 (b :: rest) with
        | nil => exact absurd hs (splitOnTwo_ne_nil c1 c2 (b :: rest))
        | cons g gs =>
          rw [hs] at ih
          simpa using ih

theorem splitOnTwo_of_no_marker {c1 c2 : Char} {s : Str}
    (h : containsSub c1 c2 s = false) : splitOnTwo c1 c2 s = [s] := by
  induction s with
  | nil => rfl
  | cons a t ih =>
    cases t with
    | nil => rfl
    | cons b rest =>
      unfold containsSub at h
      rw [Bool.or_eq_false_iff] at h
      unfold splitOnTwo
      rw [if_neg ?hab]
      case hab =>
        intro ⟨h1, h2⟩
        have := h.1
        rw [h1, h2] at this
        simp at this
      rw [ih h.2]

theorem splitOnTwo_cons2 (c1 c2 a b : Char) (rest : Str) :
    splitOnTwo c1 c2 (a :: b :: rest) =
      if a = c1 ∧ b = c2 then [] :: splitOnTwo c1 c2 rest
      else match splitOnTwo c1 c2 (b :: rest) with
        | [] => [[a]]
        | g :: gs => (a :: g) :: gs := rfl

theorem takeUntilSub_cons2 (c1 c2 a b : Char) (rest : Str) :
    takeUntilSub c1 c2 (a :: b :: rest) =
      if a = c1 ∧ b = c2 then [] else a :: takeUntilSub c1 c2 (b :: rest) := rfl

theorem dropThroughSub_cons2 (c1 c2 a b : Char) (rest : Str) :
    dropThroughSub c1 c2 (a :: b :: rest) =
      if a = c1 ∧ b = c2 then rest else dropThroughSub c1 c2 (b :: rest) := rfl

theorem splitOnTwo_of_marker {c1 c2 : Char} {s : Str}
    (h : containsSub c1 c2 s = true) :
    splitOnTwo c1 c2 s =
      takeUntilSub c1 c2 s :: splitOnTwo c1 c2 (dropThroughSub c1 c2 s) := by
  induction s with
  | nil => exact absurd h (by simp [containsSub])
  | cons a t ih =>
    cases t with
    | nil => exact absurd h (by simp [containsSub])
    | cons b rest =>
      rw [splitOnTwo_cons2, takeUntilSub_cons2, dropThroughSub_cons2]
      by_cases hab : a = c1 ∧ b = c2
      · rw [if_pos hab, if_pos hab, if_pos hab]
      · rw [if_neg hab, if_neg hab, if_neg hab]
        unfold containsSub at h
        rw [Bool.or_eq_true] at h
        have htail : containsSub c1 c2 (b :: rest) = true := by
          rcases h with h | h
          · rw [Bool.and_eq_true] at h
            exact absurd ⟨by simpa using h.1, by simpa using h.2⟩ hab
          · exact h
        rw [ih htail]

theorem trimSuffix_paren (u : Str) :
    trimSuffixStr u [')'] = if u.getLast? = some ')' then u.dropLast else u := by
  unfold trimSuffixStr
  by_cases hs : ([')'] : Str).isSuffixOf u = true
  · rw [if_pos hs]
    obtain ⟨w, hw⟩ := List.isSuffixOf_iff_suffix.mp hs
    subst hw
    rw [if_pos (List.getLast?_concat w)]
    have hL : (w ++ [')']).length - ([')'] : Str).length = w.length := by simp
    rw [hL, List.dropLast_concat]
    exact List.take_left w [')']
  · rw [if_neg hs, if_neg ?hl]
    case hl =>
      intro hl
      obtain ⟨ys, hys⟩ := List.getLast?_eq_some_iff.mp hl
      exact hs (List.isSuffixOf_iff_suffix.mpr ⟨ys, hys.symm⟩)

theorem imageScan_cons (path l : Str) (rest : List Str) :
    imageScan path (l :: rest) =
      (if (str "![").isPrefixOf (trimSpace l) then
        match splitOnTwo ']' '(' (trimSpace l) with
        | _ :: p1 :: _ =>
          .ok (str "https://xbarapp.com/docs/" ++
            pathJoin [pathDir path, trimSuffixStr p1 [')']])
        | _ => .panicked "index out of range"
      else imageScan path rest) := rfl

theorem imageScan_lines_spec (path : Str) (lines : List Str)
    (h : ∀ l, lines.find? (fun l => (str "![").isPrefixOf (trimSpace l)) = some l →
      containsSub ']' '(' (trimSpace l) = true) :
    imageScan path lines =
      .ok (match lines.find? (fun l => (str "![").isPrefixOf (trimSpace l)) with
        | none => []
        | some l => specImageFromLine path (trimSpace l)) := by
  induction lines with
  | nil => rfl
  | cons l rest ih =>
    by_cases hm : (str "![").isPrefixOf (trimSpace l) = true
    · have hfind : List.find? (fun l => (str "![").isPrefixOf (trimSpace l)) (l :: rest) =
          some l := List.find?_cons_of_pos _ hm
      rw [hfind]
      have hcont := h l hfind
      rw [imageScan_cons, if_pos hm, splitOnTwo_of_marker hcont]
      cases hs : splitOnTwo ']' '(' (dropThroughSub ']' '(' (trimSpace l)) with
      | nil => exact absurd hs (splitOnTwo_ne_nil _ _ _)
      | cons q qs =>
        have hq : q = takeUntilSub ']' '(' (dropThroughSub ']' '(' (trimSpace l)) := by
          have h2 := splitOnTwo_headD ']' '(' (dropThroughSub ']' '(' (trimSpace l))
          rw [hs] at h2
          simpa using h2
        show GoResult.ok (str "https://xbarapp.com/docs/" ++
            pathJoin [pathDir path, trimSuffixStr q [')']]) =
          .ok (specImageFromLine path (trimSpace l))
        rw [hq, trimSuffix_paren]
        rfl
    · have hfind : List.find? (fun l => (str "![").isPrefixOf (trimSpace l)) (l :: rest) =
          List.find? (fun l => (str "![").isPrefixOf (trimSpace l)) rest :=
        List.find?_cons_of_neg _ hm
      rw [hfind, imageScan_cons, if_neg hm]
      exact ih (fun l2 hl2 => h l2 (by rw [hfind]; exact hl2))

/-- C3, amended.  For every markdown file in which the first trimmed line
beginning with `![` (if any) contains `](`: the hero image URL comes from
that first matching line only; the URL is the text after the first `](`
up to the next `](` or the end of the line, with one trailing `)` removed
when that text ends in `)`; it is resolved against the directory of the
destination-relative path and prefixed with `https://xbarapp.com/docs/`;
and when no line starts with `![` the image field is empty.  In
particular `![alt](images/hero.png)` under `2023/04` yields
`https://xbarapp.com/docs/2023/04/images/hero.png`. -/
theorem claim3_image_url :
    ∀ (path content : Str),
      Option.all (fun l => containsSub ']' '(' (trimSpace l))
        ((splitOnChar '\n' content).find?
          (fun l => (str "![").isPrefixOf (trimSpace l))) = true →
      imageScan path (splitOnChar '\n' content) = .ok (specImageURL path content) := by
  intro path content h
  have h2 : ∀ l, (splitOnChar '\n' content).find?
      (fun l => (str "![").isPrefixOf (trimSpace l)) = some l →
      containsSub ']' '(' (trimSpace l) = true := by
    intro l hl
    rw [hl] at h
    simpa using h
  rw [imageScan_lines_spec path _ h2]
  rfl

/-- Witness for C3's amended rule at the concrete example of the claim. -/
theorem claim3_image_url_witness :
    imageScan (str "2023/04/my-post.html")
        (splitOnChar '\n' (str "Intro\n![alt](images/hero.png)\nRest\n")) =
      .ok (str "https://xbarapp.com/docs/2023/04/images/hero.png") :=
  (claim3_image_url (str "2023/04/my-post.html")
    (str "Intro\n![alt](images/hero.png)\nRest\n") (by decide)).trans (by decide)

theorem toNat_ofNat_valid {n : Nat} (h : n.isValidChar) : (Char.ofNat n).toNat = n := by
  unfold Char.ofNat
  rw [dif_pos h]
  rfl

theorem asciiLower_no_slash {s : Str} (h : ('/' : Char) ∉ s) :
    ('/' : Char) ∉ asciiLower s := by
  intro hmem
  unfold asciiLower at hmem
  obtain ⟨c, hc, hfc⟩ := List.mem_map.mp hmem
  split at hfc
  case isTrue hcond =>
    have hcond2 : 'A' ≤ c ∧ c ≤ 'Z' := by simpa using hcond
    have h65 : 65 ≤ c.toNat := by
      simpa using BitVec.le_def.mp (UInt32.le_def.mp (Char.le_def.mp hcond2.1))
    have h90 : c.toNat ≤ 90 := by
      simpa using BitVec.le_def.mp (UInt32.le_def.mp (Char.le_def.mp hcond2.2))
    have hvalid : (c.toNat + 32).isValidChar := Or.inl (by omega)
    have htn := congrArg Char.toNat hfc
    rw [toNat_ofNat_valid hvalid] at htn
    rw [show ('/' : Char).toNat = 47 from rfl] at htn
    omega
  case isFalse =>
    exact h (hfc ▸ hc)

theorem asciiLower_append (a b : Str) :
    asciiLower (a ++ b) = asciiLower a ++ asciiLower b :=
  List.map_append _ _ _

theorem rename_md {b : Str} (h : (str ".md").isSuffixOf b = true) :
    b.take (b.length - 2) ++ str "html" = trimSuffixStr b (str ".md") ++ str ".html" := by
  obtain ⟨x, hx⟩ := List.isSuffixOf_iff_suffix.mp h
  subst hx
  have h3 : (str ".md").length = 3 := rfl
  have hlen : (x ++ str ".md").length - 2 = x.length + 1 := by
    rw [List.length_append, h3]
    omega
  rw [hlen, List.take_append_eq_append_take, List.take_of_length_le (by omega)]
  rw [show x.length + 1 - x.length = 1 from by omega]
  unfold trimSuffixStr
  rw [if_pos (List.isSuffixOf_iff_suffix.mpr ⟨x, rfl⟩)]
  have hlen2 : (x ++ str ".md").length - (str ".md").length = x.length := by
    rw [List.length_append]
    omega
  rw [hlen2, List.take_left]
  rw [show (str ".md").take 1 = ['.'] from rfl]
  rw [List.append_assoc]
  rfl

theorem processMarkdownFile_Path {path src content : Str} {pd : PageData}
    (h : processMarkdownFile path src content = .ok pd) : pd.Path = path := by
  unfold processMarkdownFile at h
  cases hd : dateFromPath path with
  | panicked m => rw [hd] at h; exact absurd h (by simp)
  | failed m => rw [hd] at h; exact absurd h (by simp)
  | ok ats =>
    rw [hd] at h
    cases hi : imageScan path (splitOnChar '\n' content) with
    | panicked m => rw [hi] at h; exact absurd h (by simp)
    | failed m => rw [hi] at h; exact absurd h (by simp)
    | ok ip =>
      rw [hi] at h
      simp only [GoResult.ok.injEq] at h
      rw [← h]

/-- C4.  For every rendered markdown file, the destination file is the
mirrored relative path under the destination root with the base filename
lower-cased and the `.md` extension replaced by `.html`; a successful
render writes a `.html` file at exactly that path; and the concrete
source `2023/04/My-Post.md` lands at destination-relative
`2023/04/my-post.html`. -/
theorem claim4_dest_path :
    (∀ (path rel content dest : Str) (pd : PageData),
      (str ".md").isSuffixOf (pathBase path) = true →
      runArticleJob path rel content = .ok (dest, pd) →
      dest = pathJoin [destFolder, pathDir rel,
        asciiLower (trimSuffixStr (pathBase path) (str ".md") ++ str ".html")] ∧
      (str ".html").isSuffixOf dest = true) ∧
    (∀ (content dest : Str) (pd : PageData),
      runArticleJob (pathJoin [sourceArticlesFolder, str "2023/04/My-Post.md"])
        (str "2023/04/My-Post.md") content = .ok (dest, pd) →
      dest = str "../../xbarapp.com/public/docs/2023/04/my-post.html" ∧
      pd.Path = str "2023/04/my-post.html") := by
  constructor
  · intro path rel content dest pd hsuf hjob
    have hbslash : ('/' : Char) ∉ pathBase path := by
      rcases pathBase_cases path with hb | hb
      · rw [hb] at hsuf
        exact absurd hsuf (by decide)
      · exact hb
    unfold runArticleJob at hjob
    simp only [] at hjob
    rw [rename_md hsuf] at hjob
    split at hjob
    · exact absurd hjob (by simp)
    · exact absurd hjob (by simp)
    case h_3 pd2 heq =>
      simp only [GoResult.ok.injEq, Prod.mk.injEq] at hjob
      obtain ⟨hdest, hpd⟩ := hjob
      rw [← hdest]
      refine ⟨rfl, ?_⟩
      have hysub : ∀ a, a ∈ trimSuffixStr (pathBase path) (str ".md") → a ∈ pathBase path := by
        intro a ha
        unfold trimSuffixStr at ha
        rw [if_pos hsuf] at ha
        have hsub : List.take ((pathBase path).length - (str ".md").length) (pathBase path)
            ⊆ pathBase path := List.take_subset _ _
        exact hsub ha
      have hyns : ('/' : Char) ∉ trimSuffixStr (pathBase path) (str ".md") :=
        fun hm => hbslash (hysub '/' hm)
      rw [asciiLower_append]
      rw [show asciiLower (str ".html") = str ".html" from rfl]
      set y := asciiLower (trimSuffixStr (pathBase path) (str ".md")) with hy
      have hfne : y ++ str ".html" ≠ [] := by
        intro he
        have h2 := congrArg List.length he
        rw [List.length_append, show (str ".html").length = 5 from rfl,
          List.length_nil] at h2
        omega
      have hfns : ('/' : Char) ∉ y ++ str ".html" := by
        intro hm
        rcases List.mem_append.mp hm with hm | hm
        · exact asciiLower_no_slash hyns (hy ▸ hm)
        · exact absurd hm (by decide)
      have hf1 : y ++ str ".html" ≠ str "." := by
        intro he
        have := congrArg List.length he
        rw [List.length_append] at this
        rw [show (str ".html").length = 5 from rfl, show (str ".").length = 1 from rfl] at this
        omega
      have hf2 : y ++ str ".html" ≠ str ".." := by
        intro he
        have := congrArg List.length he
        rw [List.length_append] at this
        rw [show (str ".html").length = 5 from rfl, show (str "..").length = 2 from rfl] at this
        omega
      have hjoin := pathJoin_last_suffix [destFolder, pathDir rel] hfne hfns hf1 hf2
      have hhtml : str ".html" <:+ y ++ str ".html" := List.suffix_append _ _
      exact List.isSuffixOf_iff_suffix.mpr (hhtml.trans hjoin)
  · intro content dest pd hjob
    unfold runArticleJob at hjob
    simp only [] at hjob
    split at hjob
    · exact absurd hjob (by simp)
    · exact absurd hjob (by simp)
    case h_3 pd2 heq =>
      simp only [GoResult.ok.injEq, Prod.mk.injEq] at hjob
      obtain ⟨hdest, hpd⟩ := hjob
      constructor
      · rw [← hdest]
        decide
      · rw [← hpd]
        rw [processMarkdownFile_Path heq]
        decide

/-- Witness for C4 at the concrete source file of the claim. -/
theorem claim4_dest_path_witness :
    str "../../xbarapp.com/public/docs/2023/04/my-post.html" =
      pathJoin [destFolder, pathDir (str "2023/04/My-Post.md"),
        asciiLower (trimSuffixStr
          (pathBase (pathJoin [sourceArticlesFolder, str "2023/04/My-Post.md"]))
          (str ".md") ++ str ".html")] ∧
    (str ".html").isSuffixOf
      (str "../../xbarapp.com/public/docs/2023/04/my-post.html") = true :=
  claim4_dest_path.1 (pathJoin [sourceArticlesFolder, str "2023/04/My-Post.md"])
    (str "2023/04/My-Post.md") (str "hi")
    (str "../../xbarapp.com/public/docs/2023/04/my-post.html")
    ⟨str "2023/04/my-post.html", str "April 2023", str "My Post", str "hi", []⟩
    (by decide) (by decide)

/-- C10.  Article classification is an exact, case-sensitive extension
match: a walked non-dotfile entry is in the articles map exactly when the
extension of its source path is `.md`; every recorded article's source
path has extension `.md` and hence a base filename ending in `.md`, so
the two-character rename is only ever applied to filenames ending in
`.md`; and a file named `a.MD` is copied byte-for-byte as an asset
instead of being rendered. -/
theorem claim10_md_exact :
    (∀ (es : List Entry) (acc : WalkAcc), runWalk es = .ok acc →
      (∀ e ∈ es, (str ".").isPrefixOf e.name = false →
        ((pathJoin [sourceArticlesFolder, e.rel], e.rel) ∈ acc.articles ↔
          pathExt (pathJoin [sourceArticlesFolder, e.rel]) = str ".md")) ∧
      (∀ p r, (p, r) ∈ acc.articles →
        pathExt p = str ".md" ∧ (str ".md").isSuffixOf (pathBase p) = true)) ∧
    runWalk [⟨str "a.MD", str "a.MD", str "x", true⟩] =
      .ok ⟨[], [(pathJoin [destFolder, str "a.MD"], str "x")]⟩ := by
  constructor
  · intro es acc h
    obtain ⟨ha, hc⟩ := runWalkFrom_ok es ⟨[], []⟩ acc h
    simp only [List.nil_append] at ha hc
    constructor
    · intro e he hdot
      constructor
      · intro hmem
        rw [ha] at hmem
        obtain ⟨e2, he2, hfe⟩ := List.mem_filterMap.mp hmem
        unfold articleOf at hfe
        by_cases hdot2 : (str ".").isPrefixOf e2.name = true
        · rw [if_pos hdot2] at hfe; exact absurd hfe (by simp)
        · rw [if_neg hdot2] at hfe
          by_cases hext2 : pathExt (pathJoin [sourceArticlesFolder, e2.rel]) = str ".md"
          · rw [if_pos hext2] at hfe
            injection hfe with h2
            rw [Prod.mk.injEq] at h2
            rw [← h2.2]
            exact hext2
          · rw [if_neg hext2] at hfe; exact absurd hfe (by simp)
      · intro hext
        rw [ha]
        exact List.mem_filterMap.mpr ⟨e, he, by simp [articleOf, hdot, hext]⟩
    · intro p r hmem
      rw [ha] at hmem
      obtain ⟨e2, he2, hfe⟩ := List.mem_filterMap.mp hmem
      unfold articleOf at hfe
      by_cases hdot2 : (str ".").isPrefixOf e2.name = true
      · rw [if_pos hdot2] at hfe; exact absurd hfe (by simp)
      · rw [if_neg hdot2] at hfe
        by_cases hext2 : pathExt (pathJoin [sourceArticlesFolder, e2.rel]) = str ".md"
        · rw [if_pos hext2] at hfe
          injection hfe with h2
          rw [Prod.mk.injEq] at h2
          rw [← h2.1]
          exact ⟨hext2, pathExt_md_suffix hext2⟩
        · rw [if_neg hext2] at hfe; exact absurd hfe (by simp)
  · rfl

/-- Witness for C10's universal part at a one-file walk. -/
theorem claim10_md_exact_witness :
    (pathJoin [sourceArticlesFolder, str "2023/04/b.md"], str "2023/04/b.md") ∈
      (⟨[(pathJoin [sourceArticlesFolder, str "2023/04/b.md"], str "2023/04/b.md")], []⟩ :
        WalkAcc).articles :=
  (((claim10_md_exact.1 [⟨str "b.md", str "2023/04/b.md", str "x", true⟩]
    ⟨[(pathJoin [sourceArticlesFolder, str "2023/04/b.md"], str "2023/04/b.md")], []⟩
    (by rfl)).1 ⟨str "b.md", str "2023/04/b.md", str "x", true⟩ (by simp)
    (by decide)).mpr (by decide))

/-- C9.  The dotfile skip applies only to an entry's own base name and
the walker never prunes directories: a directory visit returns `nil`
before the dot check is reached, so the walk descends into a dot-named
directory, and a file inside it whose own name has no leading dot is
still recorded as an article (if markdown) or copied (otherwise). -/
theorem claim9_dot_dir_descend :
    ∀ (dname fname content : Str) (acc : WalkAcc),
      (str ".").isPrefixOf dname = true →
      (str ".").isPrefixOf fname = false →
      runWalk (walkFiles [FNode.dir dname [FNode.file fname content true]]) = .ok acc →
      (pathExt (pathJoin [sourceArticlesFolder, relJoin dname fname]) = str ".md" →
        acc.articles =
          [(pathJoin [sourceArticlesFolder, relJoin dname fname], relJoin dname fname)]) ∧
      (pathExt (pathJoin [sourceArticlesFolder, relJoin dname fname]) ≠ str ".md" →
        acc.copies = [(pathJoin [destFolder, relJoin dname fname], content)]) := by
  intro dname fname content acc hd hf hrun
  have hfiles : walkFiles [FNode.dir dname [FNode.file fname content true]] =
      [⟨fname, relJoin dname fname, content, true⟩] := by
    simp [walkFiles, collectList, collect, relJoin]
  rw [hfiles] at hrun
  by_cases hext : pathExt (pathJoin [sourceArticlesFolder, relJoin dname fname]) = str ".md"
  · have heval : runWalk [⟨fname, relJoin dname fname, content, true⟩] =
        .ok ⟨[(pathJoin [sourceArticlesFolder, relJoin dname fname], relJoin dname fname)],
          []⟩ := by
      simp [runWalk, runWalkFrom, walkStep, hf, hext]
    rw [heval] at hrun
    obtain rfl : (⟨[(pathJoin [sourceArticlesFolder, relJoin dname fname],
        relJoin dname fname)], []⟩ : WalkAcc) = acc := by
      injection hrun
    exact ⟨fun _ => rfl, fun hne => absurd hext hne⟩
  · have heval : runWalk [⟨fname, relJoin dname fname, content, true⟩] =
        .ok ⟨[], [(pathJoin [destFolder, relJoin dname fname], content)]⟩ := by
      simp [runWalk, runWalkFrom, walkStep, copy, hf, hext]
    rw [heval] at hrun
    obtain rfl : (⟨[], [(pathJoin [destFolder, relJoin dname fname], content)]⟩ : WalkAcc)
        = acc := by
      injection hrun
    exact ⟨fun hmd => absurd hmd hext, fun _ => rfl⟩

/-- Witness for C9: a png inside a dot-named directory is still copied. -/
theorem claim9_dot_dir_descend_witness :
    (⟨[], [(pathJoin [destFolder, relJoin (str ".hidden") (str "pic.png")], str "IMG")]⟩ :
        WalkAcc).copies =
      [(pathJoin [destFolder, relJoin (str ".hidden") (str "pic.png")], str "IMG")] :=
  (claim9_dot_dir_descend (str ".hidden") (str "pic.png") (str "IMG")
    ⟨[], [(pathJoin [destFolder, relJoin (str ".hidden") (str "pic.png")], str "IMG")]⟩
    (by decide) (by decide) (by rfl)).2 (by decide)

/-- Witness for C7 at the concrete filename of the claim. -/
theorem claim7_title_witness :
    (⟨str "2023/04/a.html", str "April 2023", str "my great post", str "hi", []⟩ :
        PageData).Title =
      specTitle (pathBase (str "a/my-great-post.md")) :=
  claim7_title.1 (str "2023/04/a.html") (str "a/my-great-post.md") (str "hi")
    ⟨str "2023/04/a.html", str "April 2023", str "my great post", str "hi", []⟩ (by decide)

end Bloggen
